import Mathlib

/-!
Shallow embedding of the Zip Packager extension (src/dist/extension.js and
its TypeScript source src/media/packagerView.js, class `PackagerViewProvider`).

The registry `this.entries` is a JavaScript `Map<string, Entry>`; a JS `Map`
iterates in insertion order and holds at most one value per key, so it is
embedded as an insertion-ordered `List Entry` whose key-uniqueness is proved
as an invariant rather than assumed.  Host-platform plumbing (vscode API,
message passing, output channel) only carries values to and from the functions
modelled here; `vscode.workspace.fs.stat` outcomes are passed in as data.
-/

namespace ZipPackager

/-- Entry type tag: `'file' | 'directory'` in the source. -/
inductive EntryType where
  | file
  | directory
deriving DecidableEq, Repr

/-- One registry entry, as built in `handleAdd`: `{ uri, key, relativePath, type }`.
The `uri` field only feeds `uri.toString()` (the key) and the stat / read
calls, which are modelled by oracles, so the embedding keeps `key`,
`relativePath` and `type`. -/
structure Entry where
  key : String
  relativePath : String
  type : EntryType
deriving DecidableEq, Repr

/-- Keys of a registry, in insertion order. -/
def keys (r : List Entry) : List String :=
  r.map (·.key)

/-- Display record pushed by `notifyEntries`: `{ key, relativePath, type }`. -/
structure DisplayEntry where
  key : String
  relativePath : String
  type : EntryType
deriving DecidableEq, Repr

/-- Embedding of the snapshot built in `notifyEntries`:
`Array.from(this.entries.values()).map(entry => ({ key, relativePath, type }))`. -/
def snapshot (r : List Entry) : List DisplayEntry :=
  r.map fun e => ⟨e.key, e.relativePath, e.type⟩

/-- Observable outcome of `clearAll`: either the "already empty" information
message (early return, no refresh), or a registry refresh via `notifyEntries`. -/
inductive ClearOutcome where
  | alreadyEmptyMessage
  | refreshed
deriving DecidableEq, Repr

/-- Embedding of `clearAll()`: if the registry is empty, show
"Zip Packager list is already empty." and return; otherwise clear the map and
push a fresh snapshot. -/
def clearAll (r : List Entry) : List Entry × ClearOutcome :=
  if r.isEmpty then (r, .alreadyEmptyMessage) else ([], .refreshed)

/-- Embedding of `removeEntry(key)`: `Map.delete` removes the entry stored
under `key` (a JS `Map` holds at most one) and reports whether it was present;
`notifyEntries` runs only when the delete succeeded.  The returned `Bool`
records whether a refresh was pushed. -/
def removeEntry (key : String) (r : List Entry) : List Entry × Bool :=
  if r.any (·.key == key) then (r.eraseP (·.key == key), true) else (r, false)

/-- Outcome of resolving one raw member of the `uris` batch inside
`handleAdd`, before the dedup check.  The vscode calls (`Uri.parse`,
`getWorkspaceFolder`, `fs.stat`, `asRelativePath`) are host plumbing, so
their combined result is passed in as data:
* `invalid`: `!raw || typeof raw !== 'string'` — silently skipped;
* `outside`: no workspace folder — sets the `outsideWorkspace` flag;
* `failed`: `fs.stat` (or parsing) threw — caught, logged, error message;
* `unsupported`: stat type is neither file nor directory — sets `unsupported`;
* `ok key rel t`: resolved to canonical key `uri.toString()`, display path
  `asRelativePath(uri)`, and kind `t` from the stat type flags. -/
inductive Locator where
  | invalid
  | outside
  | failed
  | unsupported
  | ok (key relativePath : String) (t : EntryType)
deriving DecidableEq, Repr

/-- Loop state of the resolution pass in `handleAdd`: the `seen` set, the
`resolved` array, and the `outsideWorkspace` / `unsupported` flags, plus
whether any per-item catch block ran (`errored`). -/
structure AddScan where
  seen : List String
  resolved : List Entry
  outsideWorkspace : Bool
  unsupported : Bool
  errored : Bool
deriving Repr

/-- One iteration of the `for (const raw of incoming)` loop in `handleAdd`:
skip invalid items, record the warning flags, and for a resolved item skip it
when its key is already in the registry or in `seen`, otherwise add it to
`seen` and push it onto `resolved`. -/
def scanLocator (r : List Entry) (st : AddScan) : Locator → AddScan
  | .invalid => st
  | .outside => { st with outsideWorkspace := true }
  | .failed => { st with errored := true }
  | .unsupported => { st with unsupported := true }
  | .ok key rel t =>
      if r.any (·.key == key) || st.seen.contains key then st
      else { st with seen := key :: st.seen, resolved := st.resolved ++ [⟨key, rel, t⟩] }

/-- The whole resolution loop of `handleAdd`, starting from empty `seen`,
empty `resolved` and cleared flags. -/
def scanBatch (r : List Entry) (locs : List Locator) : AddScan :=
  locs.foldl (scanLocator r) ⟨[], [], false, false, false⟩

/-- Result of a `handleAdd` call: the new registry plus the observable
messages (`statusAdded` is the `'Items added.'` transient status, the flags
drive the two warning messages). -/
structure AddResult where
  registry : List Entry
  outsideWorkspace : Bool
  unsupported : Bool
  errored : Bool
  statusAdded : Bool
deriving Repr

/-- Embedding of `handleAdd(rawUris)`.  An empty incoming batch returns early.
Otherwise the batch is scanned, then every resolved entry is inserted with
`this.entries.set(entry.key, entry)`; each resolved key is fresh with respect
to the registry (checked in the loop), so the `Map.set` calls append the
resolved entries in order. -/
def handleAdd (r : List Entry) (locs : List Locator) : AddResult :=
  if locs.isEmpty then ⟨r, false, false, false, false⟩
  else
    let st := scanBatch r locs
    ⟨r ++ st.resolved, st.outsideWorkspace, st.unsupported, st.errored,
      !st.resolved.isEmpty⟩

/-- Errors of the `packEntries` guards, named as in the specification. -/
inductive PackError where
  | EmptyList
  | NoRoot
  | NothingToPack
deriving DecidableEq, Repr

/-- Result of a `packEntries` call: the registry after the missing-entry
prune, the warning message shown when some entries were missing, and either a
guard error or the list of existing entries handed to `createArchive`. -/
structure PackOutcome where
  registry : List Entry
  missingWarning : Option String
  result : Except PackError (List Entry)
deriving Repr

/-- Embedding of `packEntries()`.  `hasRoot` is whether
`vscode.workspace.workspaceFolders?.[0]` exists; `alive e` is whether
`vscode.workspace.fs.stat(e.uri)` succeeds at pack time.  The loop partitions
the registry into `existing` and `missing` in iteration order, deletes each
missing entry from the map by key, warns with the missing count, and aborts
with `NothingToPack` when nothing exists; otherwise `createArchive` runs on
`existing`.  I/O failures inside `createArchive` are outside this model. -/
def packEntries (hasRoot : Bool) (alive : Entry → Bool) (r : List Entry) :
    PackOutcome :=
  if r.isEmpty then ⟨r, none, .error .EmptyList⟩
  else if !hasRoot then ⟨r, none, .error .NoRoot⟩
  else
    let existing := r.filter alive
    let missing := r.filter (fun e => !alive e)
    let pruned := r.filter (fun e => !missing.any (·.key == e.key))
    let warning :=
      if missing.isEmpty then none
      else some ("Skipped " ++ toString missing.length ++ " missing item(s).")
    if existing.isEmpty then ⟨pruned, warning, .error .NothingToPack⟩
    else ⟨pruned, warning, .ok existing⟩

/-- One user-visible operation on the panel, as dispatched in
`resolveWebviewView` (`add` / `remove` / `clear` / `pack`). -/
inductive Op where
  | add (batch : List Locator)
  | remove (key : String)
  | clear
  | pack (hasRoot : Bool) (alive : Entry → Bool)

/-- Effect of one operation on the registry. -/
def applyOp (r : List Entry) : Op → List Entry
  | .add batch => (handleAdd r batch).registry
  | .remove key => (removeEntry key r).1
  | .clear => (clearAll r).1
  | .pack hasRoot alive => (packEntries hasRoot alive r).registry

/-- Registry reached from the initial empty map after a sequence of
operations. -/
def applyOps (ops : List Op) : List Entry :=
  ops.foldl applyOp []

/-! ### Serialization (createArchive / addDirectoryToMarkdown)

The filesystem reached through `fs.readdir` / `fs.stat` / `fs.readFile` is
modelled as a tree of regular files and directories (the only kinds the
traversal emits or recurses into); `readdir` order is the order of the
`children` list.  Paths are joined POSIX-style, as `path.join` does for the
plain segments produced by `readdir`. -/

/-- A filesystem node: a regular file with text content, or a directory whose
children appear in `readdir` order. -/
inductive FsNode where
  | file (content : String)
  | dir (children : List (String × FsNode))

/-- Model of `path.join(a, b)` for a plain segment `b`: `path.join("", b)`
normalizes to `b`, otherwise the parts are joined with a separator. -/
def pathJoin (a b : String) : String :=
  if a = "" then b else a ++ "/" ++ b

/-- Characters of the basename: `path.extname` only looks at the part of the
path after the last separator. -/
def basenameChars (p : List Char) : List Char :=
  (p.reverse.takeWhile fun c => c != '/').reverse

/-- Model of Node's `path.extname` on a basename: the substring starting at
the last `'.'`, except that a name with no dot, a name whose only leading
character is the last dot (like `.gitignore`), and the special name `..`
have no extension. -/
def extnameChars (b : List Char) : List Char :=
  if b = ['.', '.'] then []
  else
    let pre := b.reverse.takeWhile fun c => c != '.'
    if pre.length = b.length then []
    else if pre.length + 1 = b.length then []
    else '.' :: pre.reverse

/-- Model of Node's `path.extname`. -/
def extname (p : String) : String :=
  ⟨extnameChars (basenameChars p.data)⟩

/-- Embedding of `path.extname(name).slice(1) || 'txt'`: drop the leading dot
of the extension; an empty result (no extension, or a bare trailing dot) is
falsy in JavaScript, so the tag falls back to `txt`. -/
def langTag (name : String) : String :=
  match (extname name).data with
  | [] => "txt"
  | _ :: rest => if rest.isEmpty then "txt" else ⟨rest⟩

/-- One emitted file section, exactly the two concatenations of the source:
a heading `## 文件:` naming the relative path wrapped in backticks, a blank
line, a fenced code block tagged with the language, the raw content, the
closing fence, a blank line and a `---` separator. -/
def fileSection (relativePath tag content : String) : String :=
  "## 文件: `" ++ relativePath ++ "`\n\n" ++
    "```" ++ tag ++ "\n" ++ content ++ "\n```\n\n---\n\n"

mutual

/-- Embedding of `addDirectoryToMarkdown(dirPath, relativePath)`: fold over
the `readdir` listing, recursing into directories and emitting a section for
every regular file, with the item name joined onto the relative path. -/
def addDirectoryToMarkdown (relativePath : String) :
    List (String × FsNode) → String
  | [] => ""
  | (name, node) :: rest =>
      dirItemToMarkdown relativePath name node ++
        addDirectoryToMarkdown relativePath rest

/-- One iteration of the loop in `addDirectoryToMarkdown`: recurse on a
directory item, emit a section (tagged from the item name) on a file item. -/
def dirItemToMarkdown (relativePath name : String) : FsNode → String
  | .dir children => addDirectoryToMarkdown (pathJoin relativePath name) children
  | .file content => fileSection (pathJoin relativePath name) (langTag name) content

end

/-- A contained file discovered by the recursive traversal: its emitted
relative path, its own item name, and its content. -/
structure FileRecord where
  path : String
  name : String
  content : String
deriving DecidableEq, Repr

mutual

/-- The files contained (at any depth) in a `readdir` listing, in traversal
order, with the relative path each one is emitted under. -/
def filesOfChildren (relativePath : String) :
    List (String × FsNode) → List FileRecord
  | [] => []
  | (name, node) :: rest =>
      filesOfItem relativePath name node ++ filesOfChildren relativePath rest

/-- The files contained in one directory item. -/
def filesOfItem (relativePath name : String) : FsNode → List FileRecord
  | .dir children => filesOfChildren (pathJoin relativePath name) children
  | .file content => [⟨pathJoin relativePath name, name, content⟩]

end

/-- A registry entry as `createArchive` consumes it, paired with what the
filesystem holds at its uri: a file entry carries the file's text content, a
directory entry carries its `readdir` tree. -/
inductive PackEntry where
  | fileEntry (relativePath content : String)
  | dirEntry (relativePath : String) (children : List (String × FsNode))

/-- Body of the `for (const entry of entries)` loop in `createArchive`:
directory entries expand through `addDirectoryToMarkdown`; file entries emit
one section whose tag comes from `entry.relativePath`. -/
def serializeItem : PackEntry → String
  | .fileEntry rel content => fileSection rel (langTag rel) content
  | .dirEntry rel children => addDirectoryToMarkdown rel children

/-- Document header written before the loop: title, generation time
(`toLocaleString('zh-CN')`, host-locale text passed in as data) and a
separator rule. -/
def mdHeader (generatedAt : String) : String :=
  "# 文件集合\n\n生成时间: " ++ generatedAt ++ "\n\n---\n\n"

/-- Local-time components as the JS `Date` getters deliver them
(`getMonth()` is 0-based, `getFullYear()` is the plain year). -/
structure JsDate where
  year : Nat
  monthIndex : Nat
  day : Nat
  hour : Nat
  minute : Nat
  second : Nat
deriving DecidableEq, Repr

/-- Embedding of the local `pad` helper:
`value.toString().padStart(2, '0')`. -/
def padTwo (value : Nat) : String :=
  let s := toString value
  if s.length < 2 then "0" ++ s else s

/-- Embedding of `formatTimestamp(date)`. -/
def formatTimestamp (d : JsDate) : String :=
  toString d.year ++ padTwo (d.monthIndex + 1) ++ padTwo d.day ++ "-" ++
    padTwo d.hour ++ padTwo d.minute ++ padTwo d.second

/-- Rendering required by the specification for the two-digit fields: the
tens digit then the units digit, so one-digit values come out zero-padded. -/
def twoDigitSpec (n : Nat) : String :=
  ⟨[Nat.digitChar (n / 10), Nat.digitChar (n % 10)]⟩

/-- Model of `fs.ensureDir`: the set of directories that exist, with the
target directory added when absent. -/
def ensureDir (d : String) (dirs : List String) : List String :=
  if dirs.contains d then dirs else dirs ++ [d]

/-- Embedding of `createArchive(folder, entries)`: ensure
`<root>/search` exists, compute `bundle-<timestamp>.md` inside it, build the
document as header plus the loop's accumulated sections, and return the new
directory set, the output path and the document (the final `writeFile` hands
the document to the filesystem). -/
def createArchive (dirs : List String) (rootPath : String) (now : JsDate)
    (generatedAt : String) (items : List PackEntry) :
    List String × String × String :=
  let targetDir := rootPath ++ "/search"
  let dirs1 := ensureDir targetDir dirs
  let timestamp := formatTimestamp now
  let mdPath := targetDir ++ "/bundle-" ++ timestamp ++ ".md"
  let mdContent := items.foldl (fun acc it => acc ++ serializeItem it) (mdHeader generatedAt)
  (dirs1, mdPath, mdContent)

/-- Bool test for `pat` occurring as a contiguous run inside `l`. -/
def isSubChars (pat : List Char) : List Char → Bool
  | [] => pat.isEmpty
  | c :: rest => pat.isPrefixOf (c :: rest) || isSubChars pat rest

/-- Substring occurrence test used to state the containment properties of the
produced document. -/
def containsSub (s pat : String) : Bool :=
  isSubChars pat.data s.data

/-- Concatenation of a list of strings, used to state that the document is
the join of its sections. -/
def joinAll : List String → String
  | [] => ""
  | s :: rest => s ++ joinAll rest

/-- Invariant of the resolution loop in `handleAdd`: the resolved entries
have pairwise-distinct keys, none of which is already in the registry, and
all of which have been recorded in `seen`. -/
def ScanInv (r : List Entry) (st : AddScan) : Prop :=
  (st.resolved.map (·.key)).Nodup ∧
  (∀ e ∈ st.resolved, e.key ∉ keys r) ∧
  (∀ e ∈ st.resolved, e.key ∈ st.seen)

/-! ### Helper lemmas -/

theorem joinAll_append (a b : List String) :
    joinAll (a ++ b) = joinAll a ++ joinAll b := by
  induction a with
  | nil => simp [joinAll]
  | cons s rest ih => simp [joinAll, ih, String.append_assoc]

theorem foldl_append_eq_joinAll {α : Type} (f : α → String) (l : List α)
    (init : String) :
    l.foldl (fun acc a => acc ++ f a) init = init ++ joinAll (l.map f) := by
  induction l generalizing init with
  | nil => simp [joinAll]
  | cons a rest ih => simp [List.foldl_cons, ih, joinAll, String.append_assoc]

theorem eraseP_eq_filter_of_pairwise {α : Type} (p : α → Bool) :
    (l : List α) → l.Pairwise (fun a b => ¬(p a = true ∧ p b = true)) →
    l.eraseP p = l.filter fun a => !p a
  | [], _ => rfl
  | a :: l, hp => by
    rcases List.pairwise_cons.mp hp with ⟨ha, hl⟩
    by_cases hpa : p a = true
    · have hnone : ∀ b ∈ l, p b = false := fun b hb => by
        have hab := ha b hb
        by_cases hpb : p b = true
        · exact absurd ⟨hpa, hpb⟩ hab
        · exact Bool.eq_false_iff.mpr hpb
      rw [List.eraseP_cons_of_pos hpa, List.filter_cons_of_neg (by simp [hpa]),
        List.filter_eq_self.mpr (fun b hb => by simp [hnone b hb])]
    · have hpa' : p a = false := Bool.eq_false_iff.mpr hpa
      rw [List.eraseP_cons_of_neg (by simp [hpa']),
        List.filter_cons_of_pos (by simp [hpa']),
        eraseP_eq_filter_of_pairwise p l hl]

theorem pairwise_key_ne_of_nodup {r : List Entry} (h : (keys r).Nodup) :
    r.Pairwise fun a b => a.key ≠ b.key := by
  simpa [keys, List.Nodup, List.pairwise_map] using h

/-! ### Claims -/

/-- C3: `packEntries` on an empty registry fails with the `EmptyList` error
(the "Add files or folders before packaging." guard) independently of the
project root and of any stat outcome — so before any validation or I/O —
produces no output (the result is an error, so `createArchive` never runs),
and leaves the registry unchanged. -/
theorem pack_on_empty_registry_is_EmptyList :
    ∀ (hasRoot : Bool) (alive : Entry → Bool),
      packEntries hasRoot alive [] =
        ⟨[], none, Except.error PackError.EmptyList⟩ :=
  fun _ _ => rfl

/-- C8: `clearAll` on a non-empty registry empties it — the following
snapshot is empty — and pushes a refresh, while `clearAll` on an empty
registry leaves it empty and instead shows the "already empty" message, an
outcome distinct from the refresh pushed by a successful clear. -/
theorem clearAll_empties_and_reports (r : List Entry) (h : r ≠ []) :
    clearAll r = ([], ClearOutcome.refreshed) ∧
    snapshot (clearAll r).1 = [] ∧
    clearAll [] = ([], ClearOutcome.alreadyEmptyMessage) ∧
    ClearOutcome.refreshed ≠ ClearOutcome.alreadyEmptyMessage := by
  have hne : r.isEmpty = false := by
    cases r with
    | nil => exact absurd rfl h
    | cons a l => rfl
  refine ⟨?_, ?_, rfl, by decide⟩
  · simp [clearAll, hne]
  · simp [clearAll, hne, snapshot]

/-- Witness for C8 at the one-entry registry. -/
theorem clearAll_empties_and_reports_witness :
    clearAll [⟨"k", "p", EntryType.file⟩] = ([], ClearOutcome.refreshed) :=
  (clearAll_empties_and_reports [⟨"k", "p", EntryType.file⟩] (by simp)).1

/-- C9: on a registry with unique keys, `removeEntry key` leaves exactly the
entries with other keys, in order (deleting the one entry under `key` when
present, a silent no-op otherwise), so the following snapshot never contains
`key`; the refresh is pushed exactly when `key` was present. -/
theorem removeEntry_spec (key : String) (r : List Entry)
    (hnd : (keys r).Nodup) :
    (removeEntry key r).1 = r.filter (fun e => !(e.key == key)) ∧
    (∀ d ∈ snapshot (removeEntry key r).1, d.key ≠ key) ∧
    (removeEntry key r).2 = r.any (·.key == key) := by
  have hpair : r.Pairwise fun a b => ¬((a.key == key) = true ∧ (b.key == key) = true) := by
    refine (pairwise_key_ne_of_nodup hnd).imp ?_
    intro a b hab ⟨ha, hb⟩
    exact hab ((eq_of_beq ha).trans (eq_of_beq hb).symm)
  have hmain : (removeEntry key r).1 = r.filter fun e => !(e.key == key) := by
    unfold removeEntry
    by_cases hany : r.any (·.key == key) = true
    · simp only [hany, if_true]
      exact eraseP_eq_filter_of_pairwise _ r hpair
    · have hfa : ∀ e ∈ r, (e.key == key) = false := by
        intro e he
        by_cases hk : (e.key == key) = true
        · exact absurd (List.any_eq_true.mpr ⟨e, he, hk⟩) hany
        · exact Bool.eq_false_iff.mpr hk
      simp only [Bool.not_eq_true] at hany
      simp only [hany, if_false]
      exact (List.filter_eq_self.mpr (fun e he => by simp [hfa e he])).symm
  refine ⟨hmain, ?_, ?_⟩
  · intro d hd
    rw [hmain] at hd
    simp only [snapshot, List.mem_map] at hd
    rcases hd with ⟨e, he, rfl⟩
    have := List.of_mem_filter he
    simpa using this
  · unfold removeEntry
    by_cases hany : r.any (·.key == key) = true
    · simp [hany]
    · simp only [Bool.not_eq_true] at hany
      simp [hany]

theorem scanLocator_inv (r : List Entry) (st : AddScan) (l : Locator)
    (h : ScanInv r st) : ScanInv r (scanLocator r st l) := by
  obtain ⟨h1, h2, h3⟩ := h
  cases l with
  | invalid => exact ⟨h1, h2, h3⟩
  | outside => exact ⟨h1, h2, h3⟩
  | failed => exact ⟨h1, h2, h3⟩
  | unsupported => exact ⟨h1, h2, h3⟩
  | ok key rel t =>
    simp only [scanLocator]
    by_cases hc : (r.any (·.key == key) || st.seen.contains key) = true
    · rw [if_pos hc]
      exact ⟨h1, h2, h3⟩
    · rw [if_neg hc]
      rw [Bool.or_eq_true, not_or] at hc
      obtain ⟨hreg, hseen⟩ := hc
      have hkreg : key ∉ keys r := by
        intro hk
        rcases List.mem_map.mp hk with ⟨e, he, hek⟩
        exact hreg (List.any_eq_true.mpr ⟨e, he, by simp [hek]⟩)
      have hkseen : key ∉ st.seen := by
        intro hk
        exact hseen (List.elem_iff.mpr hk)
      refine ⟨?_, ?_, ?_⟩
      · rw [List.map_append]
        refine List.Nodup.append h1 (by simp) ?_
        intro a ha hb
        simp only [List.map_cons, List.map_nil, List.mem_singleton] at hb
        subst hb
        rcases List.mem_map.mp ha with ⟨e, he, hek⟩
        exact hkseen (hek ▸ h3 e he)
      · intro e he
        rcases List.mem_append.mp he with he | he
        · exact h2 e he
        · simp only [List.mem_singleton] at he
          subst he
          exact hkreg
      · intro e he
        rcases List.mem_append.mp he with he | he
        · exact List.mem_cons_of_mem _ (h3 e he)
        · simp only [List.mem_singleton] at he
          subst he
          exact List.mem_cons_self _ _

theorem scanFold_inv (r : List Entry) (locs : List Locator) (st : AddScan)
    (h : ScanInv r st) : ScanInv r (locs.foldl (scanLocator r) st) := by
  induction locs generalizing st with
  | nil => exact h
  | cons l rest ih => exact ih _ (scanLocator_inv r st l h)

theorem scanBatch_inv (r : List Entry) (locs : List Locator) :
    ScanInv r (scanBatch r locs) :=
  scanFold_inv r locs _ ⟨List.nodup_nil, by simp, by simp⟩

theorem handleAdd_preserves_nodup (r : List Entry) (locs : List Locator)
    (h : (keys r).Nodup) : (keys (handleAdd r locs).registry).Nodup := by
  unfold handleAdd
  by_cases he : locs.isEmpty = true
  · rw [if_pos he]
    exact h
  · rw [if_neg he]
    obtain ⟨h1, h2, h3⟩ := scanBatch_inv r locs
    show ((r ++ (scanBatch r locs).resolved).map (·.key)).Nodup
    rw [List.map_append]
    refine List.Nodup.append h h1 ?_
    intro a ha hb
    rcases List.mem_map.mp hb with ⟨e, hee, hek⟩
    exact h2 e hee (hek ▸ ha)

theorem applyOp_preserves_nodup (r : List Entry) (op : Op)
    (h : (keys r).Nodup) : (keys (applyOp r op)).Nodup := by
  cases op with
  | add batch => exact handleAdd_preserves_nodup r batch h
  | remove key =>
    show (keys (removeEntry key r).1).Nodup
    unfold removeEntry
    by_cases hany : r.any (·.key == key) = true
    · rw [if_pos hany]
      show ((r.eraseP (·.key == key)).map (·.key)).Nodup
      have h' : (r.map fun e => e.key).Nodup := h
      exact ((List.eraseP_sublist r).map fun e => e.key).nodup h'
    · rw [if_neg hany]
      exact h
  | clear =>
    show (keys (clearAll r).1).Nodup
    unfold clearAll
    by_cases he : r.isEmpty = true
    · rw [if_pos he]
      exact h
    · rw [if_neg he]
      simp [keys]
  | pack hasRoot alive =>
    show (keys (packEntries hasRoot alive r).registry).Nodup
    unfold packEntries
    by_cases he : r.isEmpty = true
    · rw [if_pos he]
      exact h
    · rw [if_neg he]
      by_cases hr : (!hasRoot) = true
      · rw [if_pos hr]
        exact h
      · rw [if_neg hr]
        have h' : (r.map fun e => e.key).Nodup := h
        have hsub : ((r.filter fun e =>
            !(r.filter fun e => !alive e).any (·.key == e.key)).map fun e => e.key).Nodup :=
          ((List.filter_sublist r).map fun e => e.key).nodup h'
        by_cases hx : (r.filter alive).isEmpty = true
        · rw [if_pos hx]
          exact hsub
        · rw [if_neg hx]
          exact hsub

theorem scanFold_resolved_of_present (r : List Entry) (locs : List Locator)
    (st : AddScan)
    (h : ∀ l ∈ locs, ∀ key rel t, l = Locator.ok key rel t → key ∈ keys r) :
    (locs.foldl (scanLocator r) st).resolved = st.resolved := by
  induction locs generalizing st with
  | nil => rfl
  | cons l rest ih =>
    have hstep : (scanLocator r st l).resolved = st.resolved := by
      cases l with
      | invalid => rfl
      | outside => rfl
      | failed => rfl
      | unsupported => rfl
      | ok key rel t =>
        have hk : key ∈ keys r := h _ (List.mem_cons_self _ _) key rel t rfl
        rcases List.mem_map.mp hk with ⟨e, he, hek⟩
        have hany : r.any (·.key == key) = true :=
          List.any_eq_true.mpr ⟨e, he, by simp [hek]⟩
        simp [scanLocator, hany]
    rw [List.foldl_cons, ih _ (fun l hl => h l (List.mem_cons_of_mem _ hl)), hstep]

/-- C1: starting from the empty registry, after any sequence of operations
(in particular any sequence of `add` batches) the registry keys are pairwise
distinct; and an `add` batch all of whose resolved locators carry
already-present keys is skipped entirely, leaving the registry unchanged. -/
theorem registry_keys_unique :
    (∀ ops : List Op, (keys (applyOps ops)).Nodup) ∧
    (∀ (r : List Entry) (batch : List Locator),
      (∀ l ∈ batch, ∀ key rel t, l = Locator.ok key rel t → key ∈ keys r) →
      (handleAdd r batch).registry = r) := by
  constructor
  · intro ops
    unfold applyOps
    have haux : ∀ (l : List Op) (r : List Entry), (keys r).Nodup →
        (keys (l.foldl applyOp r)).Nodup := by
      intro l
      induction l with
      | nil => intro r hr; exact hr
      | cons op rest ih =>
        intro r hr
        exact ih _ (applyOp_preserves_nodup r op hr)
    exact haux ops [] (by simp [keys])
  · intro r batch h
    unfold handleAdd
    by_cases he : batch.isEmpty = true
    · simp [he]
    · simp only [Bool.not_eq_true] at he
      simp only [he, if_false]
      rw [show (scanBatch r batch).resolved = [] from
        scanFold_resolved_of_present r batch _ h]
      simp

/-- Witness for C1: re-adding the key `"k"` to a registry that already holds
it leaves the registry unchanged. -/
theorem registry_keys_unique_witness :
    (handleAdd [⟨"k", "p", EntryType.file⟩]
      [Locator.ok "k" "p2" EntryType.directory]).registry =
    [⟨"k", "p", EntryType.file⟩] := by
  refine registry_keys_unique.2 _ _ ?_
  intro l hl key rel t hlk
  simp only [List.mem_singleton] at hl
  subst hl
  cases hlk
  simp [keys]

theorem pruned_eq_filter_alive (alive : Entry → Bool) (r : List Entry)
    (hnd : (keys r).Nodup) :
    (r.filter fun e => !(r.filter fun e2 => !alive e2).any (·.key == e.key)) =
      r.filter alive := by
  apply List.filter_congr
  intro e he
  by_cases ha : alive e = true
  · have hnone : ((r.filter fun e2 => !alive e2).any (·.key == e.key)) = false := by
      rw [List.any_eq_false]
      intro m hm
      rcases List.mem_filter.mp hm with ⟨hmr, hmal⟩
      intro hbeq
      have hkey : m.key = e.key := eq_of_beq hbeq
      have hnd' : (r.map fun e => e.key).Nodup := hnd
      have hinj := List.inj_on_of_nodup_map hnd'
      have : m = e := hinj hmr he hkey
      subst this
      rw [ha] at hmal
      simp at hmal
    rw [hnone, ha]
    rfl
  · have ha' : alive e = false := Bool.eq_false_iff.mpr ha
    have hsome : ((r.filter fun e2 => !alive e2).any (·.key == e.key)) = true := by
      rw [List.any_eq_true]
      exact ⟨e, List.mem_filter.mpr ⟨he, by simp [ha']⟩, by simp⟩
    rw [hsome, ha']
    rfl

/-- C2: `packEntries` on a non-empty registry with a root available prunes
exactly the entries whose stat re-check fails, keeping the surviving entries
in order; it shows one warning carrying the count of skipped items exactly
when some entry was missing; and it proceeds to archive precisely the
surviving entries, failing with `NothingToPack` when none survives. -/
theorem pack_prunes_missing_and_packs_existing (alive : Entry → Bool)
    (r : List Entry) (hne : r ≠ []) (hnd : (keys r).Nodup) :
    (packEntries true alive r).registry = r.filter alive ∧
    (packEntries true alive r).missingWarning =
      (if (r.filter fun e => !alive e).isEmpty then none
       else some ("Skipped " ++ toString (r.filter fun e => !alive e).length ++
         " missing item(s).")) ∧
    (packEntries true alive r).result =
      (if (r.filter alive).isEmpty then Except.error PackError.NothingToPack
       else Except.ok (r.filter alive)) := by
  have hre : r.isEmpty = false := by
    cases r with
    | nil => exact absurd rfl hne
    | cons a l => rfl
  simp only [packEntries]
  rw [if_neg (by simp [hre]), if_neg (by simp)]
  by_cases hx : (r.filter alive).isEmpty = true
  · rw [if_pos hx, if_pos hx]
    exact ⟨pruned_eq_filter_alive alive r hnd, rfl, rfl⟩
  · rw [if_neg hx, if_neg hx]
    exact ⟨pruned_eq_filter_alive alive r hnd, rfl, rfl⟩

/-- Witness for C2: of two entries, the second one is missing at pack time;
it is pruned, one warning reports one skipped item, and the archive is built
from the surviving entry alone. -/
theorem pack_prunes_missing_and_packs_existing_witness :
    (packEntries true (fun e => e.key == "a")
        [⟨"a", "p", EntryType.file⟩, ⟨"b", "q", EntryType.file⟩]).registry =
      [⟨"a", "p", EntryType.file⟩] ∧
    (packEntries true (fun e => e.key == "a")
        [⟨"a", "p", EntryType.file⟩, ⟨"b", "q", EntryType.file⟩]).missingWarning =
      some "Skipped 1 missing item(s)." ∧
    (packEntries true (fun e => e.key == "a")
        [⟨"a", "p", EntryType.file⟩, ⟨"b", "q", EntryType.file⟩]).result =
      Except.ok [⟨"a", "p", EntryType.file⟩] := by
  have h := pack_prunes_missing_and_packs_existing (fun e => e.key == "a")
    [⟨"a", "p", EntryType.file⟩, ⟨"b", "q", EntryType.file⟩] (by simp) (by decide)
  refine ⟨?_, ?_, ?_⟩
  · rw [h.1]; decide
  · rw [h.2.1]; decide
  · rw [h.2.2]; rfl

/-- C10: the missing-entry prune is not rolled back on failure — any entry
whose stat re-check fails is gone from the registry whatever the outcome,
and packing a registry whose entries are all missing empties it, warns with
the full count, and aborts with `NothingToPack`. -/
theorem pack_prune_survives_failure :
    (∀ (alive : Entry → Bool) (r : List Entry) (e : Entry),
      e ∈ r → alive e = false →
      e.key ∉ keys (packEntries true alive r).registry) ∧
    (∀ (alive : Entry → Bool) (r : List Entry),
      r ≠ [] → (∀ e ∈ r, alive e = false) →
      packEntries true alive r =
        ⟨[], some ("Skipped " ++ toString r.length ++ " missing item(s)."),
          Except.error PackError.NothingToPack⟩) := by
  constructor
  · intro alive r e her hdead hmem
    have hre : r.isEmpty = false := by
      cases r with
      | nil => exact absurd her (by simp)
      | cons a l => rfl
    simp only [packEntries] at hmem
    rw [if_neg (by simp [hre]), if_neg (by simp)] at hmem
    have hmem' : e.key ∈ keys (r.filter fun e2 =>
        !(r.filter fun e3 => !alive e3).any (·.key == e2.key)) := by
      by_cases hx : (r.filter alive).isEmpty = true
      · rw [if_pos hx] at hmem
        exact hmem
      · rw [if_neg hx] at hmem
        exact hmem
    rcases List.mem_map.mp hmem' with ⟨e2, he2, hk2⟩
    rcases List.mem_filter.mp he2 with ⟨_, hpred⟩
    have hmiss : e ∈ r.filter fun e3 => !alive e3 :=
      List.mem_filter.mpr ⟨her, by simp [hdead]⟩
    have : ((r.filter fun e3 => !alive e3).any (·.key == e2.key)) = true :=
      List.any_eq_true.mpr ⟨e, hmiss, by simp [hk2]⟩
    rw [this] at hpred
    simp at hpred
  · intro alive r hne hdead
    have hre : r.isEmpty = false := by
      cases r with
      | nil => exact absurd rfl hne
      | cons a l => rfl
    have hmissing : (r.filter fun e => !alive e) = r :=
      List.filter_eq_self.mpr (fun e he => by simp [hdead e he])
    have hexisting : r.filter alive = [] := by
      rw [List.filter_eq_nil_iff]
      intro e he
      simp [hdead e he]
    have hpruned : (r.filter fun e =>
        !(r.filter fun e2 => !alive e2).any (·.key == e.key)) = [] := by
      rw [List.filter_eq_nil_iff]
      intro e he
      have : ((r.filter fun e2 => !alive e2).any (·.key == e.key)) = true := by
        rw [hmissing]
        exact List.any_eq_true.mpr ⟨e, he, by simp⟩
      simp [this]
    simp only [packEntries]
    rw [if_neg (by simp [hre]), if_neg (by simp)]
    rw [if_pos (by rw [hexisting]; rfl)]
    rw [hpruned, hmissing]
    rw [if_neg (by simp [hre])]

/-- Witness for C10: packing a one-entry registry whose entry is missing
empties the registry and fails with `NothingToPack`. -/
theorem pack_prune_survives_failure_witness :
    (packEntries true (fun _ => false) [⟨"a", "p", EntryType.file⟩]).registry = [] ∧
    (packEntries true (fun _ => false) [⟨"a", "p", EntryType.file⟩]).result =
      Except.error PackError.NothingToPack := by
  have h := pack_prune_survives_failure.2 (fun _ => false)
    [⟨"a", "p", EntryType.file⟩] (by simp) (fun e _ => rfl)
  rw [h]
  exact ⟨rfl, rfl⟩

theorem takeWhile_eq_self_of_all {p : Char → Bool} (l : List Char)
    (h : ∀ a ∈ l, p a = true) : l.takeWhile p = l := by
  have h2 := @List.takeWhile_append_of_pos Char p l [] h
  simpa using h2

theorem extnameChars_eq_nil_of_no_dot (b : List Char) (h : '.' ∉ b) :
    extnameChars b = [] := by
  unfold extnameChars
  by_cases hb : b = ['.', '.']
  · exact absurd (show ('.' : Char) ∈ b by rw [hb]; simp) h
  · rw [if_neg hb]
    have hall : ∀ c ∈ b.reverse, (c != '.') = true := by
      intro c hc
      have : c ∈ b := List.mem_reverse.mp hc
      have : c ≠ '.' := fun hcc => h (hcc ▸ this)
      simpa using this
    rw [takeWhile_eq_self_of_all _ hall]
    rw [if_pos (List.length_reverse b)]

theorem langTag_of_no_dot (name : String) (h : '.' ∉ name.data) :
    langTag name = "txt" := by
  have hbase : '.' ∉ basenameChars name.data := by
    intro hc
    apply h
    have h1 : '.' ∈ (name.data.reverse.takeWhile fun c => c != '/') :=
      List.mem_reverse.mp hc
    exact List.mem_reverse.mp (List.takeWhile_subset _ h1)
  unfold langTag extname
  rw [show (String.mk (extnameChars (basenameChars name.data))).data =
      extnameChars (basenameChars name.data) from rfl]
  rw [extnameChars_eq_nil_of_no_dot _ hbase]

theorem langTag_append_ext (s ext : String)
    (hne : ext.data ≠ []) (hdot : '.' ∉ ext.data) (hslash : '/' ∉ ext.data)
    (hbase : basenameChars s.data ≠ []) :
    langTag (s ++ "." ++ ext) = ext := by
  have hdata : (s ++ "." ++ ext).data = s.data ++ '.' :: ext.data := by
    rw [String.data_append, String.data_append]
    simp
  have hextall : ∀ c ∈ ext.data.reverse, (c != '/') = true := by
    intro c hc
    have hmem : c ∈ ext.data := List.mem_reverse.mp hc
    have : c ≠ '/' := fun hcc => hslash (hcc ▸ hmem)
    simpa using this
  have hbasename : basenameChars (s ++ "." ++ ext).data =
      basenameChars s.data ++ '.' :: ext.data := by
    unfold basenameChars
    rw [hdata]
    rw [List.reverse_append]
    rw [show ('.' :: ext.data).reverse = ext.data.reverse ++ ['.'] by simp]
    rw [List.append_assoc]
    rw [List.takeWhile_append_of_pos hextall]
    rw [show (['.'] ++ s.data.reverse) = '.' :: s.data.reverse from rfl]
    rw [List.takeWhile_cons_of_pos (by simp)]
    simp
  set b0 := basenameChars s.data with hb0
  have hb0len : 0 < b0.length := List.length_pos.mpr hbase
  have hextlen : 0 < ext.data.length := List.length_pos.mpr hne
  have hext : extnameChars (b0 ++ '.' :: ext.data) = '.' :: ext.data := by
    unfold extnameChars
    rw [if_neg (by
      intro hcontra
      have hlen := congrArg List.length hcontra
      simp only [List.length_append, List.length_cons, List.length_nil] at hlen
      omega)]
    have hrev : (b0 ++ '.' :: ext.data).reverse =
        ext.data.reverse ++ '.' :: b0.reverse := by
      rw [List.reverse_append]
      simp
    have hextall2 : ∀ c ∈ ext.data.reverse, (c != '.') = true := by
      intro c hc
      have hmem : c ∈ ext.data := List.mem_reverse.mp hc
      have : c ≠ '.' := fun hcc => hdot (hcc ▸ hmem)
      simpa using this
    have hpre : (b0 ++ '.' :: ext.data).reverse.takeWhile (fun c => c != '.') =
        ext.data.reverse := by
      rw [hrev, List.takeWhile_append_of_pos hextall2,
        List.takeWhile_cons_of_neg (by simp)]
      simp
    rw [hpre]
    rw [if_neg (by
      simp only [List.length_reverse, List.length_append, List.length_cons]
      omega)]
    rw [if_neg (by
      simp only [List.length_reverse, List.length_append, List.length_cons]
      omega)]
    simp
  unfold langTag extname
  rw [show (String.mk (extnameChars (basenameChars (s ++ "." ++ ext).data))).data
      = extnameChars (basenameChars (s ++ "." ++ ext).data) from rfl]
  rw [hbasename, hext]
  have : ext.data.isEmpty = false := by
    cases hx : ext.data with
    | nil => exact absurd hx hne
    | cons a l => rfl
  simp only [this, if_false, Bool.false_eq_true]

/-- C4 counterexample: the claim says the fenced-block tag is the extension
lowercased, but the code applies no lowercasing: a file named `A.PY` is
serialized with the tag `PY`, not `py`. -/
theorem langTag_not_lowercased :
    langTag "A.PY" = "PY" ∧
    containsSub (serializeItem (.fileEntry "A.PY" "x")) "```PY" = true ∧
    containsSub (serializeItem (.fileEntry "A.PY" "x")) "```py" = false := by
  refine ⟨by decide, by decide, by decide⟩

/-- C4 (amended): the fenced-block language tag is the file's extension with
the leading dot removed, exactly as written in the name (case preserved, not
lowercased), and `txt` when the name has no extension (e.g. `Makefile`). -/
theorem langTag_is_raw_extension (s ext : String)
    (hne : ext ≠ "") (hdot : '.' ∉ ext.data) (hslash : '/' ∉ ext.data)
    (hbase : basenameChars s.data ≠ []) :
    langTag (s ++ "." ++ ext) = ext ∧
    (∀ name : String, '.' ∉ name.data → langTag name = "txt") ∧
    langTag "Makefile" = "txt" := by
  have hne' : ext.data ≠ [] := by
    intro hx
    apply hne
    cases ext
    simp at hx
    simp [hx]
  exact ⟨langTag_append_ext s ext hne' hdot hslash hbase,
    fun name h => langTag_of_no_dot name h, by decide⟩

/-- Witness for C4 (amended) at the file name `a.py`. -/
theorem langTag_is_raw_extension_witness :
    langTag ("a" ++ "." ++ "py") = "py" := by
  have h := langTag_is_raw_extension "a" "py" (by decide) (by decide)
    (by decide) (by decide)
  exact h.1

/-- C5 counterexample: the produced document uses the Chinese heading
`## 文件:`; it contains a file section for `a.py` but no occurrence of the
claimed English heading form `## File:`. -/
theorem heading_is_not_english :
    containsSub ((createArchive [] "/r" ⟨2026, 9, 11, 8, 5, 3⟩ "g"
      [.fileEntry "a.py" "print(1)"]).2.2) "## 文件: `a.py`" = true ∧
    containsSub ((createArchive [] "/r" ⟨2026, 9, 11, 8, 5, 3⟩ "g"
      [.fileEntry "a.py" "print(1)"]).2.2) "## File" = false := by
  refine ⟨by decide, by decide⟩

/-- C5 (amended): the document is the header followed by one section per
entry; a file entry's section is exactly the heading line `## 文件:` naming
the relative path wrapped in backticks, a blank line, a fenced code block
tagged with the language holding the raw content, a blank line and a `---`
rule; in particular for a file `a.py` with content `print(1)` the document
contains a heading with `a.py`, a fence tagged `py`, and the literal
`print(1)`. -/
theorem file_section_template :
    (∀ (dirs : List String) (root : String) (now : JsDate) (gen : String)
        (items : List PackEntry),
      (createArchive dirs root now gen items).2.2 =
        mdHeader gen ++ joinAll (items.map serializeItem)) ∧
    (∀ rel content : String,
      serializeItem (.fileEntry rel content) =
        "## 文件: `" ++ rel ++ "`\n\n" ++
          "```" ++ langTag rel ++ "\n" ++ content ++ "\n```\n\n---\n\n") ∧
    containsSub ((createArchive [] "/r" ⟨2026, 9, 11, 8, 5, 3⟩ "g"
      [.fileEntry "a.py" "print(1)"]).2.2) "## 文件: `a.py`" = true ∧
    containsSub ((createArchive [] "/r" ⟨2026, 9, 11, 8, 5, 3⟩ "g"
      [.fileEntry "a.py" "print(1)"]).2.2) "```py\n" = true ∧
    containsSub ((createArchive [] "/r" ⟨2026, 9, 11, 8, 5, 3⟩ "g"
      [.fileEntry "a.py" "print(1)"]).2.2) "print(1)" = true := by
  refine ⟨?_, fun rel content => rfl, by decide, by decide, by decide⟩
  intro dirs root now gen items
  simp only [createArchive]
  exact foldl_append_eq_joinAll serializeItem items (mdHeader gen)

mutual

theorem addDirectoryToMarkdown_eq_joinAll (rel : String) :
    (children : List (String × FsNode)) →
    addDirectoryToMarkdown rel children =
      joinAll ((filesOfChildren rel children).map fun t =>
        fileSection t.path (langTag t.name) t.content)
  | [] => by simp [addDirectoryToMarkdown, filesOfChildren, joinAll]
  | (name, node) :: rest => by
      rw [show addDirectoryToMarkdown rel ((name, node) :: rest) =
          dirItemToMarkdown rel name node ++ addDirectoryToMarkdown rel rest
        from rfl]
      rw [show filesOfChildren rel ((name, node) :: rest) =
          filesOfItem rel name node ++ filesOfChildren rel rest from rfl]
      rw [List.map_append, joinAll_append,
        dirItemToMarkdown_eq_joinAll rel name node,
        addDirectoryToMarkdown_eq_joinAll rel rest]

theorem dirItemToMarkdown_eq_joinAll (rel name : String) :
    (node : FsNode) →
    dirItemToMarkdown rel name node =
      joinAll ((filesOfItem rel name node).map fun t =>
        fileSection t.path (langTag t.name) t.content)
  | .dir children => by
      rw [show dirItemToMarkdown rel name (.dir children) =
          addDirectoryToMarkdown (pathJoin rel name) children from rfl]
      rw [show filesOfItem rel name (.dir children) =
          filesOfChildren (pathJoin rel name) children from rfl]
      exact addDirectoryToMarkdown_eq_joinAll (pathJoin rel name) children

  | .file content => by
      simp [dirItemToMarkdown, filesOfItem, joinAll]

end

mutual

theorem filesOfChildren_path_prefixed (rel : String) (hrel : rel ≠ "") :
    (children : List (String × FsNode)) → ∀ t ∈ filesOfChildren rel children,
      ∃ suffix : String, t.path = rel ++ "/" ++ suffix
  | [] => by simp [filesOfChildren]
  | (name, node) :: rest => by
      intro t ht
      rw [show filesOfChildren rel ((name, node) :: rest) =
          filesOfItem rel name node ++ filesOfChildren rel rest from rfl] at ht
      rcases List.mem_append.mp ht with ht | ht
      · exact filesOfItem_path_prefixed rel name hrel node t ht
      · exact filesOfChildren_path_prefixed rel hrel rest t ht

theorem filesOfItem_path_prefixed (rel name : String) (hrel : rel ≠ "") :
    (node : FsNode) → ∀ t ∈ filesOfItem rel name node,
      ∃ suffix : String, t.path = rel ++ "/" ++ suffix
  | .file content => by
      intro t ht
      rw [show filesOfItem rel name (.file content) =
          [⟨pathJoin rel name, name, content⟩] from rfl] at ht
      rcases List.mem_singleton.mp ht with rfl
      exact ⟨name, by simp [pathJoin, hrel]⟩
  | .dir children => by
      intro t ht
      rw [show filesOfItem rel name (.dir children) =
          filesOfChildren (pathJoin rel name) children from rfl] at ht
      have hjoin : pathJoin rel name ≠ "" := by
        simp only [pathJoin, if_neg hrel]
        intro hcontra
        have := congrArg String.data hcontra
        simp at this
      obtain ⟨suf, hsuf⟩ :=
        filesOfChildren_path_prefixed (pathJoin rel name) hjoin children t ht
      refine ⟨name ++ "/" ++ suf, ?_⟩
      rw [hsuf]
      simp only [pathJoin, if_neg hrel]
      simp [String.append_assoc]

end

/-- C6: a directory entry expands depth-first to exactly one section per
contained file and none for directories: the emitted markdown is the join of
the file sections of the contained files, every emitted path extends the
directory entry's relative path, and a directory holding `x.txt` and
`sub/y.txt` yields exactly two sections in either traversal order. -/
theorem directory_expansion (rel : String) (hrel : rel ≠ "")
    (children : List (String × FsNode)) :
    (∀ (rel2 : String) (cs : List (String × FsNode)),
      addDirectoryToMarkdown rel2 cs =
        joinAll ((filesOfChildren rel2 cs).map fun t =>
          fileSection t.path (langTag t.name) t.content)) ∧
    (∀ t ∈ filesOfChildren rel children,
      ∃ suffix : String, t.path = rel ++ "/" ++ suffix) ∧
    (filesOfChildren "d" [("x.txt", FsNode.file "a"),
        ("sub", FsNode.dir [("y.txt", FsNode.file "b")])]).map
      (fun t => t.path) = ["d/x.txt", "d/sub/y.txt"] ∧
    (filesOfChildren "d" [("sub", FsNode.dir [("y.txt", FsNode.file "b")]),
        ("x.txt", FsNode.file "a")]).map
      (fun t => t.path) = ["d/sub/y.txt", "d/x.txt"] ∧
    (filesOfChildren "d" [("x.txt", FsNode.file "a"),
        ("sub", FsNode.dir [("y.txt", FsNode.file "b")])]).length = 2 ∧
    (filesOfChildren "d" [("sub", FsNode.dir [("y.txt", FsNode.file "b")]),
        ("x.txt", FsNode.file "a")]).length = 2 := by
  refine ⟨fun rel2 cs => addDirectoryToMarkdown_eq_joinAll rel2 cs,
    fun t ht => filesOfChildren_path_prefixed rel hrel children t ht,
    by decide, by decide, by decide, by decide⟩

/-- Witness for C6 at the two-file example directory. -/
theorem directory_expansion_witness :
    ∃ suffix : String,
      (FileRecord.mk "d/x.txt" "x.txt" "a").path = "d" ++ "/" ++ suffix := by
  have h := directory_expansion "d" (by decide)
    [("x.txt", FsNode.file "a"), ("sub", FsNode.dir [("y.txt", FsNode.file "b")])]
  exact h.2.1 ⟨"d/x.txt", "x.txt", "a"⟩ (by decide)

theorem padTwo_eq_twoDigitSpec : ∀ n, n < 100 → padTwo n = twoDigitSpec n := by
  decide

/-- C7: the output path is `<root>/search/bundle-<timestamp>.md`; the
timestamp is the year followed by month, day and (after a dash) hour, minute,
second, each of the five rendered as exactly two digits with a leading zero
(`twoDigitSpec`); and the `search` directory is ensured to exist, an
idempotent operation. -/
theorem output_path_and_timestamp (dirs : List String) (root gen : String)
    (d : JsDate) (items : List PackEntry)
    (hm : d.monthIndex + 1 ≤ 12) (hd : d.day ≤ 31) (hh : d.hour ≤ 23)
    (hmin : d.minute ≤ 59) (hs : d.second ≤ 59) :
    (createArchive dirs root d gen items).2.1 =
      root ++ "/search/bundle-" ++ formatTimestamp d ++ ".md" ∧
    formatTimestamp d =
      toString d.year ++ twoDigitSpec (d.monthIndex + 1) ++ twoDigitSpec d.day
        ++ "-" ++ twoDigitSpec d.hour ++ twoDigitSpec d.minute ++
        twoDigitSpec d.second ∧
    (createArchive dirs root d gen items).1 = ensureDir (root ++ "/search") dirs ∧
    ensureDir (root ++ "/search") (ensureDir (root ++ "/search") dirs) =
      ensureDir (root ++ "/search") dirs := by
  refine ⟨?_, ?_, rfl, ?_⟩
  · show root ++ "/search" ++ "/bundle-" ++ formatTimestamp d ++ ".md" =
      root ++ "/search/bundle-" ++ formatTimestamp d ++ ".md"
    rw [String.append_assoc root "/search" "/bundle-"]
    rw [show ("/search" : String) ++ "/bundle-" = "/search/bundle-" from rfl]
  · unfold formatTimestamp
    rw [padTwo_eq_twoDigitSpec _ (by omega), padTwo_eq_twoDigitSpec _ (by omega),
      padTwo_eq_twoDigitSpec _ (by omega), padTwo_eq_twoDigitSpec _ (by omega),
      padTwo_eq_twoDigitSpec _ (by omega)]
  · unfold ensureDir
    by_cases hc : dirs.contains (root ++ "/search") = true
    · rw [if_pos hc, if_pos hc]
    · rw [if_neg hc]
      rw [if_pos (List.elem_iff.mpr (by simp))]

/-- Witness for C7 at a concrete date. -/
theorem output_path_and_timestamp_witness :
    (createArchive [] "/r" ⟨2026, 9, 11, 8, 5, 3⟩ "g" []).2.1 =
      "/r" ++ "/search/bundle-" ++ formatTimestamp ⟨2026, 9, 11, 8, 5, 3⟩ ++
        ".md" := by
  have h := output_path_and_timestamp [] "/r" "g" ⟨2026, 9, 11, 8, 5, 3⟩ []
    (by decide) (by decide) (by decide) (by decide) (by decide)
  exact h.1

/-- Witness for C9: removing a present key, and removing an absent key. -/
theorem removeEntry_spec_witness :
    (removeEntry "a" [⟨"a", "p", EntryType.file⟩, ⟨"b", "q", EntryType.directory⟩]).1 =
      [⟨"b", "q", EntryType.directory⟩] ∧
    (removeEntry "z" [⟨"a", "p", EntryType.file⟩]).2 = false := by
  constructor
  · have h := removeEntry_spec "a"
      [⟨"a", "p", EntryType.file⟩, ⟨"b", "q", EntryType.directory⟩] (by decide)
    rw [h.1]
    decide
  · have h := removeEntry_spec "z" [⟨"a", "p", EntryType.file⟩] (by decide)
    rw [h.2.2]
    decide

end ZipPackager
